import Mathlib

/-!
Verification of the Sword25 `PackageManager` (engines/sword25/package/packagemanager.cpp):
path normalization, the mount table, resolution, file reading and search.

Strings of the C++ source are modelled as lists of characters (`Str`), archives
and the save-file manager as explicit data, and each C++ function as a Lean
function of the same name.
-/

abbrev Str := List Char

def PATH_SEPARATOR : Char := '/'

/-- Modelled from the spec: the component splitter underlying `Common::normalizePath`
(`common/str.cpp`, which is part of this repository but not under `src/`).
Splits a path on the separator character; a path with `n` separators yields
`n + 1` components (empty components for leading, trailing or doubled separators). -/
def splitOnSep : Str → List Str
  | [] => [[]]
  | c :: rest =>
    if c = PATH_SEPARATOR then [] :: splitOnSep rest
    else (c :: (splitOnSep rest).headI) :: (splitOnSep rest).tail

/-- Modelled from the spec: reassembly of path components with a single separator
between consecutive components. -/
def joinSep : List Str → Str
  | [] => []
  | [c] => c
  | c :: c2 :: rest => c ++ PATH_SEPARATOR :: joinSep (c2 :: rest)

def dotdot : Str := ['.', '.']

/-- Modelled from the spec: the segment-collapsing core of `Common::normalizePath`.
Empty components and `.` components are dropped; a `..` component removes the
previously kept component when one exists and is not itself `..`, and is kept
otherwise. `acc` holds the kept components in reverse order. -/
def normComps : List Str → List Str → List Str
  | acc, [] => acc.reverse
  | acc, comp :: rest =>
    if comp = [] ∨ comp = ['.'] then normComps acc rest
    else if comp = dotdot then
      if acc ≠ [] ∧ acc.headI ≠ dotdot then normComps acc.tail rest
      else normComps (dotdot :: acc) rest
    else normComps (comp :: acc) rest

/-- Modelled from the spec: `Common::normalizePath` (in `common/str.cpp`, not under
`src/`): collapses `.`, `..` and redundant separators using standard lexical
path-normalization semantics, preserving a leading separator when present and
producing a canonical path with single separators throughout. -/
def commonNormalizePath (path : Str) : Str :=
  if path = [] then []
  else if path.headI = PATH_SEPARATOR then
    PATH_SEPARATOR :: joinSep (normComps [] (splitOnSep path))
  else
    joinSep (normComps [] (splitOnSep path))

/-- The concatenation built at the start of `Sword25::normalizePath`: the path
itself when it already starts with the separator, otherwise
`currentDirectory + PATH_SEPARATOR + path`. -/
def wholePath (path currentDirectory : Str) : Str :=
  if 1 ≤ path.length ∧ path.headI = PATH_SEPARATOR then path
  else currentDirectory ++ PATH_SEPARATOR :: path

/-- `Sword25::normalizePath` (packagemanager.cpp, lines 50-59). -/
def normalizePath (path currentDirectory : Str) : Str :=
  if wholePath path currentDirectory = [] then [PATH_SEPARATOR]
  else commonNormalizePath (wholePath path currentDirectory)

/-- A member of an archive (`Common::ArchiveMember`): its name, and the result of
`createReadStream` — `some bytes` when a stream can be opened, `none` on stream
failure. -/
structure ArchiveMember where
  name : Str
  stream : Option (List Nat)
deriving DecidableEq

/-- An archive-like resource provider (`Common::Archive`): `members` backs
`hasFile`/`getMember`, and `matchingMembers` models `listMatchingMembers`
(provider-defined glob semantics, left abstract). -/
structure Archive where
  members : List ArchiveMember
  matchingMembers : Str → List ArchiveMember

def Archive.hasFile (a : Archive) (p : Str) : Bool :=
  a.members.any (fun m => m.name = p)

def Archive.getMember (a : Archive) (p : Str) : Option ArchiveMember :=
  a.members.find? (fun m => m.name = p)

/-- `PackageManager::ArchiveEntry`: an archive together with its mount path.
`isDirectory` is a ghost flag recording which load operation created the entry
(`true` for `LoadDirectoryAsPackage`, `false` for `LoadPackage`); it is used only
to state the precedence invariant and has no effect on any operation. -/
structure ArchiveEntry where
  archive : Archive
  mountPath : Str
  isDirectory : Bool

/-- `PackageManager::GetArchiveMember` (lines 85-106): scan the archive list in
order; entries whose mount path is not a prefix of the file name are skipped,
and the first entry whose archive has the prefix-stripped remainder yields the
member. -/
def GetArchiveMember : List ArchiveEntry → Str → Option ArchiveMember
  | [], _ => none
  | e :: rest, fileName =>
    if e.mountPath.isPrefixOf fileName then
      if e.archive.hasFile (fileName.drop e.mountPath.length) then
        e.archive.getMember (fileName.drop e.mountPath.length)
      else GetArchiveMember rest fileName
    else GetArchiveMember rest fileName

/-- The first mount-table entry, in table order, whose mount path is a literal
prefix of the path and whose provider contains the remainder path (the spec's
description of the winning entry of resolution). -/
def winEntry (table : List ArchiveEntry) (p : Str) : Option ArchiveEntry :=
  table.find? (fun e =>
    e.mountPath.isPrefixOf p && e.archive.hasFile (p.drop e.mountPath.length))

/-- Resolution as the spec words it: the member delivered by the winning entry,
`none` when no entry wins. -/
def resolveSpec (table : List ArchiveEntry) (p : Str) : Option ArchiveMember :=
  match winEntry table p with
  | some e => e.archive.getMember (p.drop e.mountPath.length)
  | none => none

/-- `PackageManager` state: the mount table and the current directory. -/
structure PackageManager where
  archiveList : List ArchiveEntry
  currentDirectory : Str

/-- `PackageManager::LoadPackage` (lines 108-126). The result of
`Common::makeZipArchive` is passed in (`none` models failure to open the
archive). On success the new entry is appended at the back of the table. -/
def LoadPackage (table : List ArchiveEntry) (zipFile : Option Archive)
    (mountPosition : Str) : Bool × List ArchiveEntry :=
  match zipFile with
  | none => (false, table)
  | some z => (true, table ++ [⟨z, mountPosition, false⟩])

/-- `PackageManager::LoadDirectoryAsPackage` (lines 128-145). `directoryExists`
models `directory.exists()`; `folderArchive` the `Common::FSDirectory` wrapper.
On success the new entry is inserted at the front of the table. -/
def LoadDirectoryAsPackage (table : List ArchiveEntry) (directoryExists : Bool)
    (folderArchive : Archive) (mountPosition : Str) : Bool × List ArchiveEntry :=
  if directoryExists then (true, ⟨folderArchive, mountPosition, true⟩ :: table)
  else (false, table)

def B25S_EXTENSION : Str := ['.', 'b', '2', '5', 's']

/-- Modelled from the spec: `FileSystemUtil::GetPathFilename` (not under `src/`) —
the save-file storage is keyed by filename, so this extracts the filename
component, the text after the last separator. -/
def GetPathFilename (p : Str) : Str :=
  (splitOnSep p).getLastD []

/-- `PackageManager::GetFile` (lines 147-195). `sfm` models the save-file
manager's `openForLoading` (keyed by filename); `fileSizePtr` models the size
out-parameter as `none` (null pointer) or `some v` (pointer at current value
`v`). The outer `Option` of the result models definedness: `none` is the
undefined behaviour of dereferencing a null `fileSizePtr` in the save-game
branch (`if (*fileSizePtr)` at line 161); otherwise the result carries the
returned buffer (`none` for a NULL return) and the final pointed-to value. -/
def GetFile (pm : PackageManager) (sfm : Str → Option (List Nat))
    (fileName : Str) (fileSizePtr : Option Nat) :
    Option (Option (List Nat) × Option Nat) :=
  if B25S_EXTENSION.isSuffixOf fileName then
    match sfm (GetPathFilename fileName) with
    | none => some (none, fileSizePtr)
    | some bytes =>
      match fileSizePtr with
      | none => none
      | some v =>
        some (some bytes, if v ≠ 0 then some bytes.length else some v)
  else
    match GetArchiveMember pm.archiveList
        (normalizePath fileName pm.currentDirectory) with
    | none => some (none, fileSizePtr)
    | some m =>
      match m.stream with
      | none => some (none, fileSizePtr)
      | some bytes =>
        let ptr := if fileSizePtr.isSome then some bytes.length else fileSizePtr
        if bytes.length = 0 then some (none, ptr)
        else some (some bytes, ptr)

/-- `PackageManager::FileExists` (lines 242-245). -/
def FileExists (pm : PackageManager) (fileName : Str) : Bool :=
  (GetArchiveMember pm.archiveList
    (normalizePath fileName pm.currentDirectory)).isSome

/-- `PackageManager::ChangeDirectory` (lines 212-216). -/
def ChangeDirectory (pm : PackageManager) (directory : Str) :
    Bool × PackageManager :=
  (true, { pm with currentDirectory := normalizePath directory pm.currentDirectory })

/-- `PackageManager::GetCurrentDirectory` (lines 208-210). -/
def GetCurrentDirectory (pm : PackageManager) : Str :=
  pm.currentDirectory

/-- Modelled from the spec: the file-type bitmask of `doSearch` (the
`FT_DIRECTORY`/`FT_FILE` flags are declared in the header, not under `src/`).
`dir` is the FT_DIRECTORY bit and `file` the FT_FILE bit of `typeFilter`. -/
structure TypeMask where
  dir : Bool
  file : Bool

/-- The loop of `PackageManager::doSearch` over the archive list (lines 254-278):
for each entry whose mount path is a prefix of the normalized filter, the
matching members whose trailing-separator-ness fits the type mask are appended,
and the count of appended members accumulated. -/
def searchArchives (normalizedFilter : Str) (typeFilter : TypeMask) :
    List ArchiveEntry → List ArchiveMember × Nat
  | [] => ([], 0)
  | e :: rest =>
    if e.mountPath.isPrefixOf normalizedFilter then
      let kept := (e.archive.matchingMembers
          (normalizedFilter.drop e.mountPath.length)).filter
        (fun m => (typeFilter.dir && [PATH_SEPARATOR].isSuffixOf m.name) ||
                  (typeFilter.file && !([PATH_SEPARATOR].isSuffixOf m.name)))
      let r := searchArchives normalizedFilter typeFilter rest
      (kept ++ r.1, kept.length + r.2)
    else searchArchives normalizedFilter typeFilter rest

/-- `PackageManager::doSearch` (lines 247-281): `list` is the caller's output
list members are appended to; the result is the final list and the returned
count. The `path` argument only triggers a stub warning in the source and has
no effect on the result. -/
def doSearch (pm : PackageManager) (list : List ArchiveMember)
    (filter path : Str) (typeFilter : TypeMask) : List ArchiveMember × Nat :=
  let r := searchArchives (normalizePath filter pm.currentDirectory) typeFilter
    pm.archiveList
  (list ++ r.1, r.2)

/-- Search as the spec words it: across all prefix-matching mounts in table
order, the enumerated members kept iff a member is a directory name (trailing
separator) and the FT_DIRECTORY bit is set, or a file name (no trailing
separator) and the FT_FILE bit is set; duplicates are not removed. -/
def searchSpec (table : List ArchiveEntry) (normalizedFilter : Str)
    (typeFilter : TypeMask) : List ArchiveMember :=
  (table.filter (fun e => e.mountPath.isPrefixOf normalizedFilter)).flatMap
    (fun e => (e.archive.matchingMembers
        (normalizedFilter.drop e.mountPath.length)).filter
      (fun m => if [PATH_SEPARATOR].isSuffixOf m.name then typeFilter.dir
                else typeFilter.file))

/-- A load operation as issued by a caller: either `LoadPackage` (with the
outcome of `makeZipArchive`) or `LoadDirectoryAsPackage` (with the outcome of
`directory.exists()`). -/
inductive LoadOp where
  | package : Option Archive → Str → LoadOp
  | directory : Bool → Archive → Str → LoadOp

def applyOp (table : List ArchiveEntry) : LoadOp → List ArchiveEntry
  | .package zipFile mountPosition => (LoadPackage table zipFile mountPosition).2
  | .directory ex folderArchive mountPosition =>
      (LoadDirectoryAsPackage table ex folderArchive mountPosition).2

def applyOps (table : List ArchiveEntry) : List LoadOp → List ArchiveEntry
  | [] => table
  | op :: rest => applyOps (applyOp table op) rest

/-- Every directory-backed entry precedes every archive-backed entry in table
order: no entry created by `LoadPackage` stands in front of one created by
`LoadDirectoryAsPackage`. -/
def dirsFirst (table : List ArchiveEntry) : Prop :=
  table.Pairwise (fun a b => b.isDirectory = true → a.isDirectory = true)


/-- A component is plain when it is neither empty nor `.` nor `..`: the
normalization core keeps it unconditionally. -/
def allPlain (l : List Str) : Prop := ∀ x ∈ l, x ≠ [] ∧ x ≠ ['.'] ∧ x ≠ dotdot

/-- A component list in normal form: a run of `..` components followed by plain
components only. The output of the normalization core always has this shape. -/
def goodFwd : List Str → Prop
  | [] => True
  | c :: rest => if c = dotdot then goodFwd rest else allPlain (c :: rest)

/-- The invariant of the accumulator of `normComps` (kept components in reverse
order): plain components on top, with any `..` components forming a suffix. -/
def accGood : List Str → Prop
  | [] => True
  | c :: rest => if c = dotdot then ∀ x ∈ rest, x = dotdot
                 else c ≠ [] ∧ c ≠ ['.'] ∧ accGood rest

/-- A sample archive holding the single member `/a` as a zero-length file. -/
def archEmptyFile : Archive :=
  { members := [{ name := ['/', 'a'], stream := some [] }],
    matchingMembers := fun _ => [] }

/-- A manager state with `archEmptyFile` mounted at the empty prefix. -/
def pmEmptyFile : PackageManager :=
  { archiveList := [⟨archEmptyFile, [], false⟩], currentDirectory := ['/'] }

/-- A sample archive holding the single member `/a` as a one-byte file. -/
def archOneByte : Archive :=
  { members := [{ name := ['/', 'a'], stream := some [7] }],
    matchingMembers := fun _ => [] }

/-- A manager state with `archOneByte` mounted at the empty prefix. -/
def pmOneByte : PackageManager :=
  { archiveList := [⟨archOneByte, [], false⟩], currentDirectory := ['/'] }

/-- A sample save-file manager holding the save game `s.b25s` with three bytes. -/
def sfmSave : Str → Option (List Nat) :=
  fun n => if n = ['s', '.', 'b', '2', '5', 's'] then some [1, 2, 3] else none

/-- A sample archive holding the single member `f` with byte `1`. -/
def archA : Archive :=
  { members := [{ name := ['f'], stream := some [1] }],
    matchingMembers := fun _ => [] }

/-- A sample archive holding the single member `f` with byte `2`. -/
def archB : Archive :=
  { members := [{ name := ['f'], stream := some [2] }],
    matchingMembers := fun _ => [] }

/-! ### Lemmas about the path normalization core -/

lemma splitOnSep_ne_nil (w : Str) : splitOnSep w ≠ [] := by
  cases w with
  | nil => simp [splitOnSep]
  | cons c rest =>
    rw [splitOnSep]
    split <;> simp

lemma splitOnSep_sep (w : Str) :
    splitOnSep (PATH_SEPARATOR :: w) = [] :: splitOnSep w := by
  rw [splitOnSep, if_pos rfl]

lemma splitOnSep_append (c w s : Str) (ss : List Str)
    (hc : PATH_SEPARATOR ∉ c) (hw : splitOnSep w = s :: ss) :
    splitOnSep (c ++ w) = (c ++ s) :: ss := by
  induction c with
  | nil => simpa using hw
  | cons a c2 ih =>
    have ha : ¬ a = PATH_SEPARATOR := by
      intro h
      exact hc (h ▸ List.mem_cons_self a c2)
    have hc2 : PATH_SEPARATOR ∉ c2 := fun h => hc (List.mem_cons_of_mem _ h)
    rw [List.cons_append, splitOnSep, if_neg ha, ih hc2]
    simp

lemma mem_splitOnSep (w : Str) : ∀ x ∈ splitOnSep w, PATH_SEPARATOR ∉ x := by
  induction w with
  | nil =>
    intro x hx
    simp [splitOnSep] at hx
    simp [hx]
  | cons c rest ih =>
    intro x hx
    by_cases hc : c = PATH_SEPARATOR
    · rw [splitOnSep, if_pos hc] at hx
      rcases List.mem_cons.mp hx with h | h
      · simp [h]
      · exact ih x h
    · rw [splitOnSep, if_neg hc] at hx
      obtain ⟨s, ss, hss⟩ : ∃ s ss, splitOnSep rest = s :: ss := by
        cases h : splitOnSep rest with
        | nil => exact absurd h (splitOnSep_ne_nil rest)
        | cons a b => exact ⟨a, b, rfl⟩
      rw [hss] at hx
      simp only [List.headI_cons, List.tail_cons] at hx
      rcases List.mem_cons.mp hx with h | h
      · subst h
        intro hmem
        rcases List.mem_cons.mp hmem with h2 | h2
        · exact hc h2.symm
        · exact ih s (hss ▸ List.mem_cons_self s ss) h2
      · exact ih x (hss ▸ List.mem_cons_of_mem s h)

lemma splitOnSep_join (comps : List Str) (h0 : comps ≠ [])
    (h : ∀ x ∈ comps, PATH_SEPARATOR ∉ x) :
    splitOnSep (joinSep comps) = comps := by
  induction comps with
  | nil => exact absurd rfl h0
  | cons c rest ih =>
    cases rest with
    | nil =>
      have := splitOnSep_append c [] [] []
        (h c (List.mem_cons_self c [])) (by rw [splitOnSep])
      simpa [joinSep] using this
    | cons c2 rest2 =>
      have ih2 := ih (List.cons_ne_nil c2 rest2)
        (fun x hx => h x (List.mem_cons_of_mem c hx))
      have hsep : splitOnSep (PATH_SEPARATOR :: joinSep (c2 :: rest2)) =
          [] :: (c2 :: rest2) := by
        rw [splitOnSep_sep, ih2]
      have := splitOnSep_append c _ [] (c2 :: rest2)
        (h c (List.mem_cons_self c (c2 :: rest2))) hsep
      simpa [joinSep] using this

lemma normComps_nil (acc : List Str) : normComps acc [] = acc.reverse := rfl

lemma normComps_cons (acc : List Str) (comp : Str) (rest : List Str) :
    normComps acc (comp :: rest) =
      if comp = [] ∨ comp = ['.'] then normComps acc rest
      else if comp = dotdot then
        if acc ≠ [] ∧ acc.headI ≠ dotdot then normComps acc.tail rest
        else normComps (dotdot :: acc) rest
      else normComps (comp :: acc) rest := rfl

lemma normComps_skip (acc : List Str) (comp : Str) (rest : List Str)
    (h : comp = [] ∨ comp = ['.']) :
    normComps acc (comp :: rest) = normComps acc rest := by
  rw [normComps_cons, if_pos h]

lemma normComps_dd_pop (acc : List Str) (rest : List Str)
    (h : acc ≠ [] ∧ acc.headI ≠ dotdot) :
    normComps acc (dotdot :: rest) = normComps acc.tail rest := by
  rw [normComps_cons, if_neg (by decide), if_pos rfl, if_pos h]

lemma normComps_dd_push (acc : List Str) (rest : List Str)
    (h : ¬(acc ≠ [] ∧ acc.headI ≠ dotdot)) :
    normComps acc (dotdot :: rest) = normComps (dotdot :: acc) rest := by
  rw [normComps_cons, if_neg (by decide), if_pos rfl, if_neg h]

lemma normComps_push (acc : List Str) (comp : Str) (rest : List Str)
    (h1 : ¬(comp = [] ∨ comp = ['.'])) (h2 : ¬ comp = dotdot) :
    normComps acc (comp :: rest) = normComps (comp :: acc) rest := by
  rw [normComps_cons, if_neg h1, if_neg h2]

lemma normComps_allPlain (l : List Str) (h : allPlain l) :
    ∀ acc, normComps acc l = acc.reverse ++ l := by
  induction l with
  | nil => intro acc; simp [normComps_nil]
  | cons c rest ih =>
    intro acc
    obtain ⟨h1, h2, h3⟩ := h c (List.mem_cons_self c rest)
    rw [normComps_push acc c rest (by simp [h1, h2]) h3,
      ih (fun x hx => h x (List.mem_cons_of_mem c hx)) (c :: acc)]
    simp

lemma normComps_good (l : List Str) (h : goodFwd l) :
    ∀ acc, (∀ x ∈ acc, x = dotdot) → normComps acc l = acc.reverse ++ l := by
  induction l with
  | nil => intro acc _; simp [normComps_nil]
  | cons c rest ih =>
    intro acc hacc
    by_cases hc : c = dotdot
    · subst hc
      have hfwd : goodFwd rest := by simpa [goodFwd] using h
      cases acc with
      | nil =>
        rw [normComps_dd_push [] rest (by simp)]
        rw [ih hfwd [dotdot] (by simp)]
        simp
      | cons top acc2 =>
        have htop : top = dotdot := hacc top (List.mem_cons_self top acc2)
        rw [normComps_dd_push (top :: acc2) rest (by simp [htop])]
        rw [ih hfwd (dotdot :: top :: acc2)
          (fun x hx => by
            rcases List.mem_cons.mp hx with h | h
            · exact h
            · exact hacc x h)]
        simp
    · have hap : allPlain (c :: rest) := by simpa [goodFwd, hc] using h
      exact normComps_allPlain _ hap acc

lemma goodFwd_all_dotdot (l : List Str) (h : ∀ x ∈ l, x = dotdot) : goodFwd l := by
  induction l with
  | nil => trivial
  | cons c rest ih =>
    have hc : c = dotdot := h c (List.mem_cons_self c rest)
    simp only [goodFwd, hc, if_pos rfl]
    exact ih (fun x hx => h x (List.mem_cons_of_mem c hx))

lemma goodFwd_append_plain (l : List Str) (c : Str) (h : goodFwd l)
    (h1 : c ≠ []) (h2 : c ≠ ['.']) (h3 : c ≠ dotdot) : goodFwd (l ++ [c]) := by
  induction l with
  | nil =>
    simp only [List.nil_append, goodFwd, if_neg h3]
    intro x hx
    rcases List.mem_singleton.mp hx with rfl
    exact ⟨h1, h2, h3⟩
  | cons x xs ih =>
    by_cases hx : x = dotdot
    · have hfwd : goodFwd xs := by simpa [goodFwd, hx] using h
      have := ih hfwd
      simpa [goodFwd, hx] using this
    · have hap : allPlain (x :: xs) := by simpa [goodFwd, hx] using h
      have hap2 : allPlain (x :: (xs ++ [c])) := by
        intro y hy
        rcases List.mem_cons.mp hy with rfl | hy2
        · exact hap y (List.mem_cons_self y xs)
        · rcases List.mem_append.mp hy2 with hy3 | hy3
          · exact hap y (List.mem_cons_of_mem x hy3)
          · rcases List.mem_singleton.mp hy3 with rfl
            exact ⟨h1, h2, h3⟩
      simpa [goodFwd, hx] using hap2

lemma accGood_reverse (acc : List Str) (h : accGood acc) : goodFwd acc.reverse := by
  induction acc with
  | nil => trivial
  | cons c rest ih =>
    by_cases hc : c = dotdot
    · have hall : ∀ x ∈ rest, x = dotdot := by simpa [accGood, hc] using h
      apply goodFwd_all_dotdot
      intro x hx
      rw [List.reverse_cons] at hx
      rcases List.mem_append.mp hx with h2 | h2
      · exact hall x (List.mem_reverse.mp h2)
      · rcases List.mem_singleton.mp h2 with rfl
        exact hc
    · obtain ⟨h1, h2, h3⟩ : c ≠ [] ∧ c ≠ ['.'] ∧ accGood rest := by
        simpa [accGood, hc] using h
      rw [List.reverse_cons]
      exact goodFwd_append_plain _ _ (ih h3) h1 h2 hc

lemma normComps_goodFwd (l : List Str) :
    ∀ acc, accGood acc → goodFwd (normComps acc l) := by
  induction l with
  | nil =>
    intro acc h
    rw [normComps_nil]
    exact accGood_reverse acc h
  | cons c rest ih =>
    intro acc h
    by_cases h0 : c = [] ∨ c = ['.']
    · rw [normComps_skip acc c rest h0]
      exact ih acc h
    · by_cases hdd : c = dotdot
      · subst hdd
        by_cases hpop : acc ≠ [] ∧ acc.headI ≠ dotdot
        · rw [normComps_dd_pop acc rest hpop]
          apply ih
          cases acc with
          | nil => exact absurd rfl hpop.1
          | cons top acc2 =>
            have htop : ¬ top = dotdot := by simpa using hpop.2
            have := h
            simp only [accGood, if_neg htop] at this
            exact this.2.2
        · rw [normComps_dd_push acc rest hpop]
          apply ih
          show accGood (dotdot :: acc)
          simp only [accGood, if_pos rfl]
          cases acc with
          | nil => simp
          | cons top acc2 =>
            have htop : top = dotdot := by
              by_contra hcon
              exact hpop ⟨List.cons_ne_nil top acc2, by simpa using hcon⟩
            intro x hx
            rcases List.mem_cons.mp hx with rfl | hx2
            · exact htop
            · have := h
              simp only [accGood, if_pos htop] at this
              exact this x hx2
      · rw [normComps_push acc c rest h0 hdd]
        apply ih
        show accGood (c :: acc)
        push_neg at h0
        simp only [accGood, if_neg hdd]
        exact ⟨h0.1, h0.2, h⟩

lemma mem_normComps (l : List Str) :
    ∀ acc x, x ∈ normComps acc l → x ∈ acc ∨ x ∈ l := by
  induction l with
  | nil =>
    intro acc x hx
    rw [normComps_nil] at hx
    exact Or.inl (List.mem_reverse.mp hx)
  | cons c rest ih =>
    intro acc x hx
    by_cases h0 : c = [] ∨ c = ['.']
    · rw [normComps_skip acc c rest h0] at hx
      rcases ih acc x hx with h | h
      · exact Or.inl h
      · exact Or.inr (List.mem_cons_of_mem c h)
    · by_cases hdd : c = dotdot
      · subst hdd
        by_cases hpop : acc ≠ [] ∧ acc.headI ≠ dotdot
        · rw [normComps_dd_pop acc rest hpop] at hx
          rcases ih acc.tail x hx with h | h
          · exact Or.inl (List.mem_of_mem_tail h)
          · exact Or.inr (List.mem_cons_of_mem _ h)
        · rw [normComps_dd_push acc rest hpop] at hx
          rcases ih (dotdot :: acc) x hx with h | h
          · rcases List.mem_cons.mp h with rfl | h2
            · exact Or.inr (List.mem_cons_self _ rest)
            · exact Or.inl h2
          · exact Or.inr (List.mem_cons_of_mem _ h)
      · rw [normComps_push acc c rest h0 hdd] at hx
        rcases ih (c :: acc) x hx with h | h
        · rcases List.mem_cons.mp h with rfl | h2
          · exact Or.inr (List.mem_cons_self _ rest)
          · exact Or.inl h2
        · exact Or.inr (List.mem_cons_of_mem c h)

lemma cnp_abs (w : Str) :
    commonNormalizePath (PATH_SEPARATOR :: w) =
      PATH_SEPARATOR :: joinSep (normComps [] (splitOnSep (PATH_SEPARATOR :: w))) := by
  rw [commonNormalizePath, if_neg (List.cons_ne_nil _ _),
    if_pos (show (PATH_SEPARATOR :: w).headI = PATH_SEPARATOR from rfl)]

lemma cnp_abs_idem (w : Str) :
    commonNormalizePath (commonNormalizePath (PATH_SEPARATOR :: w)) =
      commonNormalizePath (PATH_SEPARATOR :: w) := by
  rw [cnp_abs]
  set comps := normComps [] (splitOnSep (PATH_SEPARATOR :: w)) with hcomps
  rw [commonNormalizePath, if_neg (List.cons_ne_nil _ _),
    if_pos (show (PATH_SEPARATOR :: joinSep comps).headI = PATH_SEPARATOR from rfl),
    splitOnSep_sep, normComps_skip _ _ _ (Or.inl rfl)]
  by_cases hnil : comps = []
  · rw [hnil]
    rfl
  · have hnosep : ∀ x ∈ comps, PATH_SEPARATOR ∉ x := by
      intro x hx
      rcases mem_normComps _ [] x (hcomps ▸ hx) with h | h
      · simp at h
      · exact mem_splitOnSep _ x h
    rw [splitOnSep_join comps hnil hnosep]
    have hgood : goodFwd comps := hcomps ▸ normComps_goodFwd _ [] trivial
    rw [normComps_good comps hgood [] (by simp)]
    simp

lemma wholePath_ne_nil (p c : Str) : wholePath p c ≠ [] := by
  rw [wholePath]
  split
  · next h => exact List.length_pos.mp h.1
  · simp

/-! ### Claim theorems -/

/-- C10: in `normalizePath`, the empty-concatenation special case returning the
root separator is unreachable: for every input path and current directory the
concatenated `wholePath` is non-empty, so `normalizePath` always returns
`Common::normalizePath` of the concatenation. -/
theorem normalizePath_root_case_unreachable (p c : Str) :
    wholePath p c ≠ [] ∧
    normalizePath p c = commonNormalizePath (wholePath p c) := by
  refine ⟨wholePath_ne_nil p c, ?_⟩
  rw [normalizePath, if_neg (wholePath_ne_nil p c)]

/-- C9: a path that starts with the separator character normalizes the same way
under every current-directory context. -/
theorem normalize_absolute_context_irrelevant (p c1 c2 : Str)
    (h1 : p ≠ []) (h2 : p.headI = PATH_SEPARATOR) :
    normalizePath p c1 = normalizePath p c2 := by
  have hw : ∀ c, wholePath p c = p := by
    intro c
    rw [wholePath, if_pos ⟨List.length_pos.mpr h1, h2⟩]
  rw [normalizePath, normalizePath, hw c1, hw c2]

/-- Witness for C9 at the absolute path `/x` and the contexts `/a` and `/bb`. -/
theorem normalize_absolute_context_irrelevant_witness :
    normalizePath ['/', 'x'] ['/', 'a'] = normalizePath ['/', 'x'] ['/', 'b', 'b'] :=
  normalize_absolute_context_irrelevant ['/', 'x'] ['/', 'a'] ['/', 'b', 'b']
    (by decide) (by decide)

/-- C8 counterexample: with the non-absolute current-directory context `b`,
normalization is not idempotent — `normalize("a", "b")` is `b/a`, and
renormalizing `b/a` against `b` gives `b/b/a`. -/
theorem normalize_idempotent_counterexample :
    normalizePath (normalizePath ['a'] ['b']) ['b'] ≠ normalizePath ['a'] ['b'] := by
  decide

/-- C8 amended: normalization is idempotent for every path once the
current-directory context starts with the separator — which every reachable
`_currentDirectory` does (it is initialized to the separator and only ever
replaced by a normalization result against such a context). -/
theorem normalize_idempotent_amended (p c : Str)
    (h1 : c ≠ []) (h2 : c.headI = PATH_SEPARATOR) :
    normalizePath (normalizePath p c) c = normalizePath p c := by
  obtain ⟨w, hw⟩ : ∃ w, wholePath p c = PATH_SEPARATOR :: w := by
    rw [wholePath]
    split
    · next hcond =>
      obtain ⟨a, t, rfl⟩ := List.exists_cons_of_ne_nil (List.length_pos.mp hcond.1)
      exact ⟨t, by rw [show a = PATH_SEPARATOR from hcond.2]⟩
    · obtain ⟨a, t, rfl⟩ := List.exists_cons_of_ne_nil h1
      exact ⟨t ++ PATH_SEPARATOR :: p, by rw [show a = PATH_SEPARATOR from h2]; rfl⟩
  have hnp : normalizePath p c = commonNormalizePath (PATH_SEPARATOR :: w) := by
    rw [normalizePath, hw, if_neg (List.cons_ne_nil _ _)]
  rw [hnp, cnp_abs]
  have hwp : wholePath
      (PATH_SEPARATOR :: joinSep (normComps [] (splitOnSep (PATH_SEPARATOR :: w)))) c =
      PATH_SEPARATOR :: joinSep (normComps [] (splitOnSep (PATH_SEPARATOR :: w))) := by
    rw [wholePath, if_pos ⟨by simp, rfl⟩]
  rw [normalizePath, hwp, if_neg (List.cons_ne_nil _ _), ← cnp_abs]
  exact cnp_abs_idem w

/-- Witness for C8 amended at the relative path `gfx` and the absolute context `/d`. -/
theorem normalize_idempotent_amended_witness :
    normalizePath (normalizePath ['g', 'f', 'x'] ['/', 'd']) ['/', 'd'] =
      normalizePath ['g', 'f', 'x'] ['/', 'd'] :=
  normalize_idempotent_amended ['g', 'f', 'x'] ['/', 'd'] (by decide) (by decide)

/-- C7: `ChangeDirectory` always returns true and sets the current directory to
the normalization of its argument against the previous current directory;
changing to `sub` from `/a` yields `/a/sub`, and changing to `/x` yields `/x`
whatever the prior current directory was. -/
theorem changeDirectory_spec :
    (∀ pm d, (ChangeDirectory pm d).1 = true ∧
      (ChangeDirectory pm d).2.currentDirectory =
        normalizePath d pm.currentDirectory) ∧
    (∀ table, (ChangeDirectory ⟨table, ['/', 'a']⟩ ['s', 'u', 'b']).2.currentDirectory =
      ['/', 'a', '/', 's', 'u', 'b']) ∧
    (∀ table c, (ChangeDirectory ⟨table, c⟩ ['/', 'x']).2.currentDirectory =
      ['/', 'x']) :=
  ⟨fun _ _ => ⟨rfl, rfl⟩, fun _ => rfl, fun _ _ => rfl⟩

/-- C4: a `LoadPackage` call whose archive cannot be opened and a
`LoadDirectoryAsPackage` call whose directory does not exist both return false
and leave the mount table exactly unchanged, so subsequent existence checks
behave as if the failed call never happened. -/
theorem load_failure_table_unchanged
    (table : List ArchiveEntry) (zipPos dirPos cd p : Str) (dirArch : Archive) :
    LoadPackage table none zipPos = (false, table) ∧
    LoadDirectoryAsPackage table false dirArch dirPos = (false, table) ∧
    FileExists ⟨(LoadPackage table none zipPos).2, cd⟩ p = FileExists ⟨table, cd⟩ p ∧
    FileExists ⟨(LoadDirectoryAsPackage table false dirArch dirPos).2, cd⟩ p =
      FileExists ⟨table, cd⟩ p :=
  ⟨rfl, rfl, rfl, rfl⟩

lemma winEntry_cons_neg (e : ArchiveEntry) (rest : List ArchiveEntry) (p : Str)
    (h : ¬(e.mountPath.isPrefixOf p &&
      e.archive.hasFile (p.drop e.mountPath.length)) = true) :
    winEntry (e :: rest) p = winEntry rest p := by
  rw [winEntry, winEntry]
  exact List.find?_cons_of_neg _ h

/-- C1: resolution scans the mount table front-to-back and returns the member
from the first entry, in table order, whose mount path is a literal prefix of
the path and whose provider contains the prefix-stripped remainder; an entry
whose prefix matches but whose provider lacks the member is skipped. In
particular, of two archives mounted at the same prefix both containing the
file, the one mounted first delivers the member. -/
theorem getArchiveMember_first_match :
    (∀ table p, GetArchiveMember table p = resolveSpec table p) ∧
    (∀ A B pre p, pre.isPrefixOf p = true →
      A.hasFile (p.drop pre.length) = true →
      B.hasFile (p.drop pre.length) = true →
      GetArchiveMember [⟨A, pre, false⟩, ⟨B, pre, false⟩] p =
        A.getMember (p.drop pre.length)) := by
  constructor
  · intro table p
    induction table with
    | nil => rfl
    | cons e rest ih =>
      by_cases hpre : e.mountPath.isPrefixOf p = true
      · by_cases hhas : e.archive.hasFile (p.drop e.mountPath.length) = true
        · simp [GetArchiveMember, resolveSpec, winEntry, hpre, hhas]
        · have hgam : GetArchiveMember (e :: rest) p = GetArchiveMember rest p := by
            simp [GetArchiveMember, hpre, hhas]
          have hwin := winEntry_cons_neg e rest p (by simp [hhas])
          rw [hgam, ih]
          simp only [resolveSpec, hwin]
      · have hgam : GetArchiveMember (e :: rest) p = GetArchiveMember rest p := by
          simp [GetArchiveMember, hpre]
        have hwin := winEntry_cons_neg e rest p (by simp [hpre])
        rw [hgam, ih]
        simp only [resolveSpec, hwin]
  · intro A B pre p h1 h2 h3
    simp [GetArchiveMember, h1, h2]

/-- Witness for C1: two archives mounted at prefix `/`, both holding member `f`;
resolution of `/f` yields the first archive's member. -/
theorem getArchiveMember_first_match_witness :
    GetArchiveMember [⟨archA, ['/'], false⟩, ⟨archB, ['/'], false⟩] ['/', 'f'] =
      some { name := ['f'], stream := some [1] } :=
  (getArchiveMember_first_match.2 archA archB ['/'] ['/', 'f']
    (by decide) (by decide) (by decide)).trans (by decide)

lemma keep_eq (d f b : Bool) :
    ((d && b) || (f && !b)) = (if b then d else f) := by
  cases b <;> simp

lemma searchSpec_cons_pos (e : ArchiveEntry) (rest : List ArchiveEntry)
    (nf : Str) (tf : TypeMask) (hpre : e.mountPath.isPrefixOf nf = true) :
    searchSpec (e :: rest) nf tf =
      (e.archive.matchingMembers (nf.drop e.mountPath.length)).filter
        (fun m => if [PATH_SEPARATOR].isSuffixOf m.name then tf.dir else tf.file) ++
      searchSpec rest nf tf := by
  simp [searchSpec, List.filter_cons, hpre]

lemma searchSpec_cons_neg (e : ArchiveEntry) (rest : List ArchiveEntry)
    (nf : Str) (tf : TypeMask) (hpre : e.mountPath.isPrefixOf nf = false) :
    searchSpec (e :: rest) nf tf = searchSpec rest nf tf := by
  simp [searchSpec, List.filter_cons, hpre]

lemma searchArchives_eq (table : List ArchiveEntry) (nf : Str) (tf : TypeMask) :
    searchArchives nf tf table =
      (searchSpec table nf tf, (searchSpec table nf tf).length) := by
  induction table with
  | nil => rfl
  | cons e rest ih =>
    by_cases hpre : e.mountPath.isPrefixOf nf = true
    · have hfilter :
          (e.archive.matchingMembers (nf.drop e.mountPath.length)).filter
            (fun m => (tf.dir && [PATH_SEPARATOR].isSuffixOf m.name) ||
                      (tf.file && !([PATH_SEPARATOR].isSuffixOf m.name))) =
          (e.archive.matchingMembers (nf.drop e.mountPath.length)).filter
            (fun m => if [PATH_SEPARATOR].isSuffixOf m.name then tf.dir
                      else tf.file) := by
        apply List.filter_congr
        intro m _
        exact keep_eq tf.dir tf.file _
      have hs : searchArchives nf tf (e :: rest) =
          ((e.archive.matchingMembers (nf.drop e.mountPath.length)).filter
              (fun m => (tf.dir && [PATH_SEPARATOR].isSuffixOf m.name) ||
                        (tf.file && !([PATH_SEPARATOR].isSuffixOf m.name))) ++
            (searchArchives nf tf rest).1,
           ((e.archive.matchingMembers (nf.drop e.mountPath.length)).filter
              (fun m => (tf.dir && [PATH_SEPARATOR].isSuffixOf m.name) ||
                        (tf.file && !([PATH_SEPARATOR].isSuffixOf m.name)))).length +
            (searchArchives nf tf rest).2) := by
        simp [searchArchives, hpre]
      rw [hs, ih, searchSpec_cons_pos e rest nf tf hpre, hfilter]
      simp
    · have hs : searchArchives nf tf (e :: rest) = searchArchives nf tf rest := by
        simp [searchArchives, hpre]
      rw [hs, ih, searchSpec_cons_neg e rest nf tf (eq_false_of_ne_true hpre)]

/-- C5: `doSearch` keeps an enumerated member iff its name's
trailing-separator-ness matches the requested type mask (directory iff the name
ends with the separator and the FT_DIRECTORY bit is set, file iff it does not
and the FT_FILE bit is set); kept members are appended to the caller's list in
mount-table order across all prefix-matching mounts without deduplication, and
the returned count equals the number of members appended. -/
theorem doSearch_spec (pm : PackageManager) (list : List ArchiveMember)
    (flt pathHint : Str) (tf : TypeMask) :
    (doSearch pm list flt pathHint tf).1 =
      list ++ searchSpec pm.archiveList (normalizePath flt pm.currentDirectory) tf ∧
    (doSearch pm list flt pathHint tf).2 =
      (searchSpec pm.archiveList (normalizePath flt pm.currentDirectory) tf).length := by
  constructor <;> simp [doSearch, searchArchives_eq]

lemma applyOp_dirsFirst (t : List ArchiveEntry) (op : LoadOp)
    (h : dirsFirst t) : dirsFirst (applyOp t op) := by
  cases op with
  | package zipFile pos =>
    cases zipFile with
    | none => exact h
    | some z =>
      show dirsFirst (t ++ [⟨z, pos, false⟩])
      rw [dirsFirst, List.pairwise_append]
      refine ⟨h, List.pairwise_singleton _ _, ?_⟩
      intro a _ b hb hdir
      rcases List.mem_singleton.mp hb with rfl
      exact absurd hdir (by simp)
  | directory ex arch pos =>
    cases ex with
    | false => exact h
    | true =>
      show dirsFirst (⟨arch, pos, true⟩ :: t)
      rw [dirsFirst, List.pairwise_cons]
      exact ⟨fun b _ _ => rfl, h⟩

lemma applyOps_dirsFirst (ops : List LoadOp) :
    ∀ t, dirsFirst t → dirsFirst (applyOps t ops) := by
  induction ops with
  | nil => intro t h; exact h
  | cons op rest ih => intro t h; exact ih _ (applyOp_dirsFirst t op h)

lemma winEntry_dir (table : List ArchiveEntry) (p : Str) :
    ∀ e e', dirsFirst table → e ∈ table → e.isDirectory = true →
      (e.mountPath.isPrefixOf p &&
        e.archive.hasFile (p.drop e.mountPath.length)) = true →
      winEntry table p = some e' → e'.isDirectory = true := by
  induction table with
  | nil =>
    intro e e' _ hmem
    exact absurd hmem (List.not_mem_nil e)
  | cons t rest ih =>
    intro e e' hpw hmem hdir hpred hfind
    obtain ⟨hR, hrest⟩ := List.pairwise_cons.mp hpw
    by_cases hpt : (t.mountPath.isPrefixOf p &&
        t.archive.hasFile (p.drop t.mountPath.length)) = true
    · have : winEntry (t :: rest) p = some t := by
        rw [winEntry]
        exact List.find?_cons_of_pos _ hpt
      rw [this] at hfind
      injection hfind with he
      subst he
      rcases List.mem_cons.mp hmem with rfl | hmem2
      · exact hdir
      · exact hR e hmem2 hdir
    · have hwin : winEntry (t :: rest) p = winEntry rest p :=
        winEntry_cons_neg t rest p hpt
      rw [hwin] at hfind
      rcases List.mem_cons.mp hmem with rfl | hmem2
      · exact absurd hpred hpt
      · exact ih e e' hrest hmem2 hdir hpred hfind

/-- C2: `LoadDirectoryAsPackage` inserts at the front and `LoadPackage` appends
at the back, so after any sequence of load operations starting from the empty
table every directory-backed entry precedes every archive-backed entry; hence
whenever a directory-backed entry prefix-matches a path and contains its
remainder, the entry resolution settles on is directory-backed — a mounted
directory outranks all archives for any path it contains. -/
theorem mount_table_dirs_first :
    (∀ ops, dirsFirst (applyOps [] ops)) ∧
    (∀ table p e e', dirsFirst table → e ∈ table → e.isDirectory = true →
      e.mountPath.isPrefixOf p = true →
      e.archive.hasFile (p.drop e.mountPath.length) = true →
      winEntry table p = some e' → e'.isDirectory = true) := by
  constructor
  · intro ops
    exact applyOps_dirsFirst ops [] (List.Pairwise.nil)
  · intro table p e e' hpw hmem hdir hpre hhas hfind
    exact winEntry_dir table p e e' hpw hmem hdir (by simp [hpre, hhas]) hfind

/-- Witness for C2: a table holding one directory-backed entry at prefix `/`
containing `f`; the winning entry for `/f` is directory-backed. -/
theorem mount_table_dirs_first_witness :
    (⟨archA, ['/'], true⟩ : ArchiveEntry).isDirectory = true :=
  mount_table_dirs_first.2 [⟨archA, ['/'], true⟩] ['/', 'f']
    ⟨archA, ['/'], true⟩ ⟨archA, ['/'], true⟩
    (List.pairwise_singleton _ _) (List.mem_singleton.mpr rfl) rfl
    (by decide) (by decide) rfl

/-- C3 counterexample: a mounted archive holds `/a` as an existing zero-length
file; `FileExists` is true, yet `GetFile` returns the null buffer (the
`!bytesRead` check at line 189 turns a successful zero-byte read into NULL), so
"FileExists(p) iff ReadFile(p) non-absent" fails at this state and path. -/
theorem fileExists_readFile_counterexample :
    FileExists pmEmptyFile ['/', 'a'] = true ∧
    GetFile pmEmptyFile (fun _ => none) ['/', 'a'] none = some (none, none) := by
  decide

/-- C3 amended: for non-save-game paths, `GetFile` returns a buffer exactly when
the path resolves to a member whose stream opens and has at least one byte; in
particular `ReadFile` non-null still implies `FileExists`, but `FileExists` can
be true while `ReadFile` is null (stream failure or zero-length file). -/
theorem fileExists_readFile_amended (pm : PackageManager)
    (sfm : Str → Option (List Nat)) (p : Str) (ptr : Option Nat)
    (hsuf : B25S_EXTENSION.isSuffixOf p = false) :
    (∃ buf ptr2, GetFile pm sfm p ptr = some (some buf, ptr2)) ↔
    (FileExists pm p = true ∧
      ∃ m bytes,
        GetArchiveMember pm.archiveList (normalizePath p pm.currentDirectory) =
          some m ∧ m.stream = some bytes ∧ bytes ≠ []) := by
  rw [GetFile, if_neg (by simp [hsuf])]
  rcases hg : GetArchiveMember pm.archiveList (normalizePath p pm.currentDirectory)
    with _ | m
  · simp [FileExists, hg]
  · rcases hs : m.stream with _ | bytes
    · simp only [hs]
      constructor
      · rintro ⟨buf, ptr2, hbuf⟩
        exact absurd hbuf (by simp)
      · rintro ⟨_, m2, bytes2, hm2, hs2, _⟩
        injection hm2 with hm2
        subst hm2
        rw [hs] at hs2
        exact absurd hs2 (by simp)
    · simp only [hs]
      by_cases hlen : bytes.length = 0
      · rw [if_pos hlen]
        constructor
        · rintro ⟨buf, ptr2, hbuf⟩
          exact absurd hbuf (by simp)
        · rintro ⟨_, m2, bytes2, hm2, hs2, hne⟩
          injection hm2 with hm2
          subst hm2
          rw [hs] at hs2
          injection hs2 with hs2
          subst hs2
          exact absurd (List.eq_nil_of_length_eq_zero hlen) hne
      · rw [if_neg hlen]
        constructor
        · rintro ⟨buf, ptr2, hbuf⟩
          exact ⟨by simp [FileExists, hg], m, bytes, rfl, hs,
            fun hnil => hlen (by simp [hnil])⟩
        · rintro ⟨_, _, _, _, _, _⟩
          exact ⟨bytes, _, rfl⟩

/-- Witness for C3 amended: a one-byte file `/a`; `GetFile` yields the buffer, so
`FileExists` is true. -/
theorem fileExists_readFile_amended_witness : FileExists pmOneByte ['/', 'a'] = true :=
  ((fileExists_readFile_amended pmOneByte (fun _ => none) ['/', 'a'] (some 5)
    (by decide)).mp ⟨[7], some 1, by decide⟩).1

/-- C6: evaluation of `GetFile` at the failing input of the save-game branch.
The claim says the save-game path is read through the save-file storage with
the same size out-parameter behaviour as the ordinary branch (size written
whenever the pointer is non-null). The code instead tests `if (*fileSizePtr)`
(line 161) — the pointed-to value, not the pointer: with a non-null pointer
holding 0 the size is never written (first conjunct; the claim demands
`some 3`), it is written only when the old value is non-zero (second conjunct),
and a null pointer is dereferenced, which is undefined behaviour (third
conjunct, the model's crash value). -/
theorem getFile_savegame_size_bug :
    GetFile pmEmptyFile sfmSave ['s', '.', 'b', '2', '5', 's'] (some 0) =
      some (some [1, 2, 3], some 0) ∧
    GetFile pmEmptyFile sfmSave ['s', '.', 'b', '2', '5', 's'] (some 9) =
      some (some [1, 2, 3], some 3) ∧
    GetFile pmEmptyFile sfmSave ['s', '.', 'b', '2', '5', 's'] none = none := by
  decide
